import Mathlib

/-!
# Verification of the Maps-bot website-enrichment pipeline

Shallow embedding of the website-enrichment pipeline of the repository:

* `src/proxy-server.ts` — the URL scorer (`scoreUrl`), the search-result
  candidate normalization, the per-query candidate selection, the multi-query
  lookup loop of the `/api/enrich` handler and its 1-hour result cache;
* `src/services/websiteEnrichmentService.ts` — the batch enrichment
  orchestrator (`enrichCompaniesWithWebsites`) with its fast path, its
  per-business status mapping, its progress counters and its inter-batch delay.

Strings are embedded as `List Char` (`Str`); JavaScript string operations
(`toLowerCase`, `includes`, `startsWith`, regex-anchored suffix tests) are
translated to executable functions on `Str`.  Network effects are made
explicit: the outcome of each search-engine fetch (`QueryOutcome`) and of each
orchestrator-side fetch to the handler (`FetchOutcome`) is an input of the
embedded functions, so that nondeterministic I/O becomes universally
quantified data.
-/

namespace MapsBot

/-- Strings of the embedded program. -/
abbrev Str := List Char

/-- JavaScript `s.toLowerCase()` (ASCII range, which is all the source uses). -/
def strToLower (s : Str) : Str := s.map Char.toLower

/-- JavaScript `hay.includes(needle)`: `needle` occurs as a contiguous
substring of `hay`. -/
def hasSubstr : Str → Str → Bool
  | [], needle => needle.isEmpty
  | hay@(_ :: rest), needle => needle.isPrefixOf hay || hasSubstr rest needle

/-- JavaScript `s.startsWith(p)`. -/
def startsWith (s p : Str) : Bool := p.isPrefixOf s

/-- JavaScript regex-anchored suffix test (`/x$/`). -/
def endsWith (s sfx : Str) : Bool := sfx.reverse.isPrefixOf s.reverse

/-- The `DIRECTORY_SITES` list of `src/proxy-server.ts`: known directory and listing
sites to exclude. -/
def DIRECTORY_SITES : List Str :=
  (["duckduckgo.com", "facebook.com", "instagram.com", "twitter.com", "x.com",
    "yelp.com", "tripadvisor.com", "linkedin.com", "yellowpages", "jumia",
    "jiiji", "google.com", "bing.com", "businesslist.co.ke", "kenyaplex.com",
    "hotfrog.co.ke", "cylex.co.ke", "kenyanlist.com", "locanto.co.ke",
    "pigiame.co.ke", "jiji.co.ke", "olx.co.ke"]).map String.toList

/-- The function `normalizeCompanyName` of `src/proxy-server.ts`: lower-case and strip every
character outside `[a-z0-9]` (the trailing `.trim()` of the source is the
identity after that stripping, since no whitespace survives the filter). -/
def normalizeCompanyName (name : Str) : Str :=
  (strToLower name).filter fun c =>
    (decide ('a' ≤ c) && decide (c ≤ 'z')) || (decide ('0' ≤ c) && decide (c ≤ '9'))

/-- The substring `".ke"` tested by `scoreUrl`. -/
def keStr : Str := ".ke".toList

/-- The substring `".co.ke"` tested by `scoreUrl`. -/
def coKeStr : Str := ".co.ke".toList

/-- The suffixes of the regex `/\.(com|org|net|co\.ke|ke)$/` of `scoreUrl`. -/
def BUSINESS_TLDS : List Str :=
  ([".com", ".org", ".net", ".co.ke", ".ke"]).map String.toList

/-- The substrings matched by `/\.(wordpress|wix|squarespace|blogspot|weebly)\./`
in `scoreUrl`. -/
def PLATFORM_SUBSTRINGS : List Str :=
  ([".wordpress.", ".wix.", ".squarespace.", ".blogspot.", ".weebly."]).map String.toList

/-- The function `scoreUrl(url, companyName)` of `src/proxy-server.ts`: -100 for denylisted
sites, else an accumulated score of +20 (Kenya domain marker), +30 (normalized
company name occurs in the URL, when non-empty), +10 (business TLD suffix) and
-5 (free website-builder platform subdomain). -/
def scoreUrl (url companyName : Str) : Int :=
  let urlLower := strToLower url
  let normalizedCompany := normalizeCompanyName companyName
  if DIRECTORY_SITES.any (fun dir => hasSubstr urlLower dir) then
    -100
  else
    (if hasSubstr urlLower keStr || hasSubstr urlLower coKeStr then (20 : Int) else 0)
      + (if !normalizedCompany.isEmpty && hasSubstr urlLower normalizedCompany then (30 : Int) else 0)
      + (if BUSINESS_TLDS.any (fun t => endsWith urlLower t) then (10 : Int) else 0)
      - (if PLATFORM_SUBSTRINGS.any (fun p => hasSubstr urlLower p) then (5 : Int) else 0)

/-! ## Search-result candidate normalization (`links.each` body, proxy-server.ts) -/

/-- The literal `"https://"`. -/
def httpsStr : Str := "https://".toList

/-- The literal `"http"` (the prefix tested by `candidateUrl.startsWith('http')`). -/
def httpStr : Str := "http".toList

/-- The literal `"/"`. -/
def slashStr : Str := "/".toList

/-- The URL-normalization steps of the `links.each` callback in
`src/proxy-server.ts`, applied to the candidate string obtained after the
redirect-wrapper (`uddg=`) decoding: if the string starts with neither
`"http"` nor `"/"`, prepend `"https://"`; afterwards skip (yield nothing for)
any string that starts with `"/"` (`// Skip relative URLs`). -/
def normalizeCandidate (candidateUrl : Str) : Option Str :=
  let c :=
    if !(startsWith candidateUrl httpStr) && !(startsWith candidateUrl slashStr) then
      httpsStr ++ candidateUrl
    else
      candidateUrl
  if startsWith c slashStr then none else some c

/-- A definition that follows the spec's words for comparison with the code:
a string "begins with a scheme" when it starts with a URI scheme in the
generic syntax, i.e. a letter followed by letters/digits/`+`/`-`/`.` and then
a colon.  Tail recursion of that syntax after the first letter. -/
def specSchemeTail : Str → Bool
  | [] => false
  | c :: rest =>
    if c == ':' then true
    else (c.isAlphanum || c == '+' || c == '-' || c == '.') && specSchemeTail rest

/-- A definition that follows the spec's words for comparison with the code:
the spec's "begins with a scheme" (step 2 of the Search-Result Extractor). -/
def specBeginsWithScheme : Str → Bool
  | [] => false
  | c :: rest => c.isAlpha && specSchemeTail rest

/-! ## Per-query candidate selection and the multi-query lookup loop -/

/-- The `ScoredUrl` record of `src/proxy-server.ts`: a candidate URL with its score. -/
structure ScoredUrl where
  url : Str
  score : Int
deriving DecidableEq, Repr

/-- The candidates a single query retains: each (already normalized) candidate
URL is scored with `scoreUrl`, and `candidates.push` happens exactly for
scores with `score > -50` (`// Only consider URLs with positive-ish scores`). -/
def retainedCandidates (companyName : Str) (urls : List Str) : List ScoredUrl :=
  (urls.map fun u => ScoredUrl.mk u (scoreUrl u companyName)).filter fun c =>
    decide (-50 < c.score)

/-- The sort `candidates.sort((a, b) => b.score - a.score)`: a stable sort by strictly
descending score (JavaScript `Array.prototype.sort` is stable). -/
def sortCandidates (cs : List ScoredUrl) : List ScoredUrl :=
  List.insertionSort (fun a b => b.score ≤ a.score) cs

/-- The threshold `bestCandidate?.score || 0`: the score of the running best, with `0` both
for a missing best and (by JavaScript falsiness, which changes nothing) for a
best whose score is `0`. -/
def bestThreshold : Option ScoredUrl → Int
  | some b => b.score
  | none => 0

/-- The best-candidate update of one query:
`if (candidates.length > 0 && candidates[0].score > (bestCandidate?.score || 0))`
after the sort. -/
def updateBest (best : Option ScoredUrl) (cs : List ScoredUrl) : Option ScoredUrl :=
  match sortCandidates cs with
  | [] => best
  | top :: _ => if bestThreshold best < top.score then some top else best

/-- The outcome of the one search-engine fetch a query performs: either the
fetch (or parse) throws, or it yields the candidate strings extracted from the
result page (each string being the `candidateUrl` after `uddg=` decoding,
before the normalization steps). -/
inductive QueryOutcome where
  | fetchError : QueryOutcome
  | fetched : List Str → QueryOutcome
deriving DecidableEq, Repr

/-- One iteration of the query loop of the `/api/enrich` handler: a fetch
error is caught and leaves the running best unchanged (`continue`); a fetched
page has its candidates normalized, scored, filtered, sorted, and offered to
`updateBest`. -/
def processQuery (companyName : Str) (best : Option ScoredUrl) :
    QueryOutcome → Option ScoredUrl
  | QueryOutcome.fetchError => best
  | QueryOutcome.fetched rawUrls =>
      updateBest best (retainedCandidates companyName (rawUrls.filterMap normalizeCandidate))

/-- The query loop of the `/api/enrich` handler: process outcomes in order,
stopping early as soon as the running best reaches a score of at least 40
(`// If we found a high-confidence result, stop searching`). -/
def runQueries (companyName : Str) : Option ScoredUrl → List QueryOutcome → Option ScoredUrl
  | best, [] => best
  | best, q :: rest =>
    match processQuery companyName best q with
    | some b => if 40 ≤ b.score then some b else runQueries companyName (some b) rest
    | none => runQueries companyName none rest

/-- The JSON result of the `/api/enrich` handler:
`{ websiteUrl: bestCandidate?.url ?? null, confidence }`. -/
structure LookupResult where
  websiteUrl : Option Str
  confidence : Int
deriving DecidableEq, Repr

/-- The search part of the `/api/enrich` handler on a cache miss:
`websiteUrl = bestCandidate ? bestCandidate.url : null` and
`confidence = bestCandidate ? Math.min(100, Math.max(0, bestCandidate.score)) : 0`. -/
def lookup (companyName : Str) (outcomes : List QueryOutcome) : LookupResult :=
  match runQueries companyName none outcomes with
  | some b => ⟨some b.url, min 100 (max 0 b.score)⟩
  | none => ⟨none, 0⟩

/-! ## The handler's result cache (NodeCache with a 1-hour TTL)

The cache is embedded as an association list; "within the TTL" of the source
corresponds to an entry still being present, so that theorems quantified over
the cache state cover exactly the inside-TTL behavior. -/

/-- The literal `"-"` of the cache key template. -/
def dashStr : Str := "-".toList

/-- The cache key of the handler: `` `${company_name}-${location}` ``. -/
def cacheKey (companyName location : Str) : Str := companyName ++ dashStr ++ location

/-- The handler's cache state. -/
abbrev Cache := List (Str × LookupResult)

/-- The read `cache.get(key)` on the association-list embedding. -/
def cacheGet (c : Cache) (k : Str) : Option LookupResult :=
  match c with
  | [] => none
  | (k2, v) :: rest => if k2 = k then some v else cacheGet rest k

/-- The write `cache.set(key, value, 3600)` on the association-list embedding. -/
def cacheSet (c : Cache) (k : Str) (v : LookupResult) : Cache := (k, v) :: c

/-- What one `/api/enrich` request produces: the JSON result sent to the
caller, the cache state afterwards, and whether a network search sequence
(the query loop) ran. -/
structure HandlerStep where
  result : LookupResult
  cache : Cache
  searched : Bool
deriving DecidableEq, Repr

/-- The `/api/enrich` handler for a well-formed request: on a cache hit the
cached result is returned with no network access; on a miss the query loop
runs and its result is written to the cache before responding. -/
def handleEnrich (c : Cache) (companyName location : Str)
    (outcomes : List QueryOutcome) : HandlerStep :=
  match cacheGet c (cacheKey companyName location) with
  | some cached => ⟨cached, c, false⟩
  | none =>
    let r := lookup companyName outcomes
    ⟨r, cacheSet c (cacheKey companyName location) r, true⟩

/-! ## Batch enrichment orchestrator (`websiteEnrichmentService.ts`) -/

/-- The `Company` record of `src/types.ts`, restricted to the fields the enrichment pipeline
reads or writes plus the remaining string payload (`contact`,
`google_maps_url`); the numeric fields (`latitude`, `longitude`, `rating`,
`distanceFromCenter`) are carried by real records but never touched by the
pipeline, so they are omitted from the embedding.  `website` is a plain
string whose absent-value sentinels are `""` (falsy) and `"N/A"`. -/
structure Company where
  name : Str
  type : Str
  locality : Str
  county : Str
  website : Str
  contact : Str
  google_maps_url : Str
deriving DecidableEq, Repr

/-- The `websiteStatus` values of `src/types.ts` `EnrichedCompany`. -/
inductive WebsiteStatus where
  | found | not_found | pending | error
deriving DecidableEq, Repr

/-- The `EnrichedCompany` record of `src/types.ts`: a `Company` plus the enrichment fields.
The orchestrator starts from `[...companies] as EnrichedCompany[]`, whose
entries do not yet carry the enrichment fields; that pre-enrichment state is
embedded as `none` in each optional field. -/
structure EnrichedCompany extends Company where
  websiteUrl : Option Str
  websiteStatus : Option WebsiteStatus
  websiteConfidence : Option Int
deriving DecidableEq, Repr

/-- The literal `"N/A"` website sentinel. -/
def NAStr : Str := "N/A".toList

/-- The fast-path test `company.website && company.website !== 'N/A'`
(JavaScript truthiness: the empty string is falsy). -/
def hasExistingWebsite (c : Company) : Bool :=
  !c.website.isEmpty && !(c.website == NAStr)

/-- Whether the orchestrator performs a network call (the `fetch` to the
handler) for a business: exactly when the fast path does not apply. -/
def usesNetwork (c : Company) : Bool := !hasExistingWebsite c

/-- The outcome of the orchestrator's `fetch('http://localhost:3001/api/enrich')`
for one business: either the fetch (or `response.json()`) throws, or it yields
a parsed body.  The orchestrator never checks `response.ok`, so an error body
from the handler parses to a record without `websiteUrl`, embedded as
`ok ⟨none, 0⟩`. -/
inductive FetchOutcome where
  | fetchThrow : FetchOutcome
  | ok : LookupResult → FetchOutcome
deriving DecidableEq, Repr

/-- The per-business body of the orchestrator's batch loop: fast path for an
already-known website, otherwise map the handler data to `found` (truthy
`data.websiteUrl`, which also updates the `website` field) or `not_found`,
and map a thrown fetch to `error`.  (`data.confidence || 0` equals
`data.confidence` on integers, `0` being the only falsy one.) -/
def enrichOne (c : Company) (o : FetchOutcome) : EnrichedCompany :=
  if hasExistingWebsite c then
    { toCompany := c, websiteUrl := some c.website,
      websiteStatus := some WebsiteStatus.found, websiteConfidence := none }
  else
    match o with
    | FetchOutcome.fetchThrow =>
        { toCompany := c, websiteUrl := none,
          websiteStatus := some WebsiteStatus.error, websiteConfidence := none }
    | FetchOutcome.ok data =>
        match data.websiteUrl with
        | some u =>
            if u.isEmpty then
              { toCompany := c, websiteUrl := none,
                websiteStatus := some WebsiteStatus.not_found,
                websiteConfidence := some data.confidence }
            else
              { toCompany := { c with website := u }, websiteUrl := some u,
                websiteStatus := some WebsiteStatus.found,
                websiteConfidence := some data.confidence }
        | none =>
            { toCompany := c, websiteUrl := none,
              websiteStatus := some WebsiteStatus.not_found,
              websiteConfidence := some data.confidence }

/-- The batch size of the orchestrator (`const BATCH_SIZE = 3`). -/
def BATCH_SIZE : Nat := 3

/-- The pre-enrichment entry of `[...companies] as EnrichedCompany[]`. -/
def initialEnriched (c : Company) : EnrichedCompany :=
  { toCompany := c, websiteUrl := none, websiteStatus := none, websiteConfidence := none }

/-- One batch of the orchestrator: for each member at offset `index` of the
batch starting at `i`, write `enrichOne` of that member into position
`companyIndex = i + index` of the result array (the concurrent `Promise.all`
writes to pairwise distinct indices, so the sequentialization is faithful to
the final array). -/
def processBatch (outcomes : Nat → FetchOutcome) :
    List Company → Nat → List EnrichedCompany → List EnrichedCompany
  | [], _, arr => arr
  | c :: rest, i, arr => processBatch outcomes rest (i + 1) (arr.set i (enrichOne c (outcomes i)))

/-- The batch loop `for (let i = 0; i < companies.length; i += BATCH_SIZE)`
with `batch = companies.slice(i, i + BATCH_SIZE)`. -/
def enrichBatches (companies : List Company) (outcomes : Nat → FetchOutcome)
    (i : Nat) (arr : List EnrichedCompany) : List EnrichedCompany :=
  if i < companies.length then
    enrichBatches companies outcomes (i + BATCH_SIZE)
      (processBatch outcomes ((companies.drop i).take BATCH_SIZE) i arr)
  else
    arr
termination_by companies.length - i
decreasing_by simp only [BATCH_SIZE]; omega

/-- The function `enrichCompaniesWithWebsites` of `src/services/websiteEnrichmentService.ts`,
as a function of the per-business fetch outcomes (indexed by position in the
input list). -/
def enrichCompaniesWithWebsites (companies : List Company)
    (outcomes : Nat → FetchOutcome) : List EnrichedCompany :=
  enrichBatches companies outcomes 0 (companies.map initialEnriched)

/-- The wait the orchestrator performs after each batch, as a function of its
`delay` parameter (declared `delay: number = 1000`): the source awaits
`new Promise(resolve => setTimeout(resolve, 1000))`, a hard-coded 1000 ms. -/
def interBatchWaitMs (delay : Nat) : Nat := 1000

/-! ## Progress counters of the orchestrator -/

/-- The `EnrichmentProgress` record of `src/types.ts`. -/
structure EnrichmentProgress where
  total : Nat
  completed : Nat
  found : Nat
  notFound : Nat
  errors : Nat
  currentBusiness : Str
deriving DecidableEq, Repr

/-- Which of the three counters a finished unit of work bumps. -/
inductive UnitKind where
  | found | notFound | error
deriving DecidableEq, Repr

/-- The counter a business's unit of work increments, per branch of
`enrichOne`: fast path and truthy `data.websiteUrl` bump `found`, a missing
or falsy `data.websiteUrl` bumps `notFound`, a thrown fetch bumps `errors`. -/
def unitKind (c : Company) (o : FetchOutcome) : UnitKind :=
  if hasExistingWebsite c then UnitKind.found
  else
    match o with
    | FetchOutcome.fetchThrow => UnitKind.error
    | FetchOutcome.ok data =>
        match data.websiteUrl with
        | some u => if u.isEmpty then UnitKind.notFound else UnitKind.found
        | none => UnitKind.notFound

/-- The atomic counter update a finished unit performs before its `onProgress`
call: `completed++`, exactly one of `found++` / `notFound++` / `errors++`, and
`currentBusiness` set to that business's name. -/
def stepProgress (p : EnrichmentProgress) (c : Company) (o : FetchOutcome) :
    EnrichmentProgress :=
  { total := p.total
    completed := p.completed + 1
    found := p.found + (if unitKind c o = UnitKind.found then 1 else 0)
    notFound := p.notFound + (if unitKind c o = UnitKind.notFound then 1 else 0)
    errors := p.errors + (if unitKind c o = UnitKind.error then 1 else 0)
    currentBusiness := c.name }

/-- The counters before any unit finishes. -/
def initProgress (total : Nat) : EnrichmentProgress := ⟨total, 0, 0, 0, 0, []⟩

/-- The progress snapshot passed to `onProgress` after the units in `done`
(in their completion order) have finished, for an input of `companies`. -/
def progressAfter (companies : List Company) (done : List (Company × FetchOutcome)) :
    EnrichmentProgress :=
  done.foldl (fun p e => stepProgress p e.1 e.2) (initProgress companies.length)

/-! ## Helper lemmas -/

/-- A member of the retained-candidate list of a query carries the score of
its own URL and passed the `score > -50` filter. -/
lemma mem_retainedCandidates {companyName : Str} {urls : List Str} {c : ScoredUrl}
    (h : c ∈ retainedCandidates companyName urls) :
    c.score = scoreUrl c.url companyName ∧ -50 < c.score := by
  unfold retainedCandidates at h
  rw [List.mem_filter] at h
  obtain ⟨hm, hs⟩ := h
  rw [List.mem_map] at hm
  obtain ⟨u, _, rfl⟩ := hm
  exact ⟨rfl, by simpa using hs⟩

/-- The running best of the query loop, when present, carries the score of its
own URL. -/
def validBest (companyName : Str) : Option ScoredUrl → Prop
  | none => True
  | some b => b.score = scoreUrl b.url companyName

instance : IsTotal ScoredUrl fun a b => b.score ≤ a.score :=
  ⟨fun a b => le_total b.score a.score⟩

instance : IsTrans ScoredUrl fun a b => b.score ≤ a.score :=
  ⟨fun _ _ _ hab hbc => le_trans hbc hab⟩

lemma sortCandidates_sorted (cs : List ScoredUrl) :
    List.Sorted (fun a b : ScoredUrl => b.score ≤ a.score) (sortCandidates cs) :=
  List.sorted_insertionSort _ cs

lemma sortCandidates_perm (cs : List ScoredUrl) : List.Perm (sortCandidates cs) cs :=
  List.perm_insertionSort _ cs

lemma validBest_updateBest {companyName : Str} {best : Option ScoredUrl} {urls : List Str}
    (h : validBest companyName best) :
    validBest companyName (updateBest best (retainedCandidates companyName urls)) := by
  unfold updateBest
  cases hs : sortCandidates (retainedCandidates companyName urls) with
  | nil => exact h
  | cons top rest =>
    by_cases hlt : bestThreshold best < top.score
    · have htop : top ∈ retainedCandidates companyName urls := by
        have hmem : top ∈ sortCandidates (retainedCandidates companyName urls) := by
          rw [hs]; exact List.mem_cons_self _ _
        exact (sortCandidates_perm _).mem_iff.mp hmem
      simp only [hlt, if_pos]
      exact (mem_retainedCandidates htop).1
    · simpa only [hlt, if_neg, not_false_iff] using h

lemma validBest_processQuery {companyName : Str} {best : Option ScoredUrl}
    (q : QueryOutcome) (h : validBest companyName best) :
    validBest companyName (processQuery companyName best q) := by
  cases q with
  | fetchError => exact h
  | fetched rawUrls => exact validBest_updateBest h

lemma validBest_runQueries (companyName : Str) (outcomes : List QueryOutcome) :
    ∀ best, validBest companyName best →
      validBest companyName (runQueries companyName best outcomes) := by
  induction outcomes with
  | nil => intro best h; simpa [runQueries] using h
  | cons q rest ih =>
    intro best h
    rw [runQueries]
    have h2 : validBest companyName (processQuery companyName best q) :=
      validBest_processQuery q h
    cases hpq : processQuery companyName best q with
    | none => exact ih none trivial
    | some b =>
      rw [hpq] at h2
      by_cases h40 : 40 ≤ b.score
      · simpa only [h40, if_pos] using h2
      · simpa only [h40, if_neg, not_false_iff] using ih (some b) h2

/-! ## C1 -/

/-- C1: for every URL whose lower-cased form contains a denylisted domain
substring of `DIRECTORY_SITES`, and for every business name, `scoreUrl`
returns exactly -100, regardless of any other signal. -/
theorem scoreUrl_denylist_rejects (url companyName : Str)
    (h : DIRECTORY_SITES.any (fun dir => hasSubstr (strToLower url) dir) = true) :
    scoreUrl url companyName = -100 := by
  unfold scoreUrl
  simp only [h, if_true]

/-- Witness for C1 at a concrete denylisted URL. -/
theorem scoreUrl_denylist_rejects_witness :
    DIRECTORY_SITES.any
        (fun dir => hasSubstr (strToLower ("https://www.facebook.com/javahouse".toList)) dir)
      = true ∧
    scoreUrl ("https://www.facebook.com/javahouse".toList) ("Java House".toList) = -100 :=
  ⟨by decide, scoreUrl_denylist_rejects _ _ (by decide)⟩

/-! ## C10 -/

/-- C10: `scoreUrl` is either exactly -100 (denylisted) or an integer in
[-5, 60]; consequently a lookup result with a non-null URL has confidence
`max 0 score` (the upper clamp at 100 never binds) and that confidence is at
most 60. -/
theorem scoreUrl_range_and_confidence :
    (∀ url companyName : Str,
        scoreUrl url companyName = -100 ∨
          (-5 ≤ scoreUrl url companyName ∧ scoreUrl url companyName ≤ 60)) ∧
    (∀ (companyName : Str) (outcomes : List QueryOutcome) (b : ScoredUrl),
        runQueries companyName none outcomes = some b →
          lookup companyName outcomes = ⟨some b.url, max 0 b.score⟩ ∧
          (lookup companyName outcomes).confidence ≤ 60) := by
  have hrange : ∀ url companyName : Str,
      scoreUrl url companyName = -100 ∨
        (-5 ≤ scoreUrl url companyName ∧ scoreUrl url companyName ≤ 60) := by
    intro url companyName
    unfold scoreUrl
    dsimp only
    split_ifs <;> omega
  refine ⟨hrange, ?_⟩
  intro companyName outcomes b hb
  have hv : validBest companyName (some b) := by
    rw [← hb]
    exact validBest_runQueries companyName outcomes none trivial
  have hb60 : b.score ≤ 60 := by
    have := hrange b.url companyName
    have hv' : b.score = scoreUrl b.url companyName := hv
    omega
  have hclamp : min 100 (max 0 b.score) = max 0 b.score := by omega
  have hl : lookup companyName outcomes = ⟨some b.url, min 100 (max 0 b.score)⟩ := by
    unfold lookup; rw [hb]
  refine ⟨?_, ?_⟩
  · rw [hl, hclamp]
  · rw [hl]
    show min 100 (max 0 b.score) ≤ 60
    omega

/-- Witness for C10 at a concrete lookup that finds a candidate. -/
theorem scoreUrl_range_and_confidence_witness :
    lookup ("javahouse".toList) [QueryOutcome.fetched [("javahouse.co.ke".toList)]] =
      ⟨some ("https://javahouse.co.ke".toList), max 0 (60 : Int)⟩ ∧
    (lookup ("javahouse".toList)
        [QueryOutcome.fetched [("javahouse.co.ke".toList)]]).confidence ≤ 60 :=
  scoreUrl_range_and_confidence.2 ("javahouse".toList)
    [QueryOutcome.fetched [("javahouse.co.ke".toList)]]
    ⟨("https://javahouse.co.ke".toList), 60⟩ (by decide)

/-! ## C9 -/

/-- Counterexample for C9 as stated: `"httpfoo.com"` does not begin with a
scheme (no colon follows the leading letters) and does not begin with `/`,
so the claim requires `https://` to be prepended; the code instead tests
`startsWith('http')`, leaves the string unchanged, and yields it as is. -/
theorem normalizeCandidate_cex :
    specBeginsWithScheme ("httpfoo.com".toList) = false ∧
    startsWith ("httpfoo.com".toList) slashStr = false ∧
    normalizeCandidate ("httpfoo.com".toList) = some ("httpfoo.com".toList) ∧
    ¬normalizeCandidate ("httpfoo.com".toList) = some (httpsStr ++ ("httpfoo.com".toList)) := by
  decide

/-- C9 amended: if the extracted string begins with neither `"http"` (the
literal prefix the code tests, rather than a full scheme) nor `"/"`, then
`"https://"` is prepended to it; and any string that still begins with `/` is
discarded — every yielded candidate URL starts with something other than
`/`. -/
theorem normalizeCandidate_spec (s : Str) :
    (startsWith s httpStr = false → startsWith s slashStr = false →
        normalizeCandidate s = some (httpsStr ++ s)) ∧
    ∀ t, normalizeCandidate s = some t → startsWith t slashStr = false := by
  have hpre : ∀ s2 : Str, startsWith (httpsStr ++ s2) slashStr = false := fun _ => rfl
  constructor
  · intro h1 h2
    unfold normalizeCandidate
    simp only [h1, h2, Bool.not_false, Bool.and_self, if_true, hpre, if_false,
      Bool.false_eq_true]
  · intro t ht
    unfold normalizeCandidate at ht
    by_cases hc : (!startsWith s httpStr && !startsWith s slashStr) = true
    · rw [if_pos hc] at ht
      rw [if_neg (by rw [hpre]; exact Bool.false_ne_true)] at ht
      obtain rfl : httpsStr ++ s = t := Option.some_injective _ ht
      exact hpre s
    · rw [if_neg hc] at ht
      by_cases hs : startsWith s slashStr = true
      · rw [if_pos hs] at ht
        exact absurd ht (by simp)
      · rw [if_neg hs] at ht
        obtain rfl : s = t := Option.some_injective _ ht
        exact Bool.eq_false_iff.mpr hs

/-- Witness for C9 (amended) at a concrete schemeless candidate. -/
theorem normalizeCandidate_spec_witness :
    normalizeCandidate ("example.com".toList) = some (httpsStr ++ ("example.com".toList)) :=
  (normalizeCandidate_spec ("example.com".toList)).1 (by decide) (by decide)

/-! ## C8 -/

/-- Counterexample for C8 as stated: with no running best, the query yields a
retained candidate (score 0, strictly above -50), which per the claim should
become the running best ("any retained candidate qualifying when there is no
running best yet"); the code compares against `bestCandidate?.score || 0`,
i.e. against 0 when there is no running best, and keeps no candidate. -/
theorem candidate_selection_cex :
    retainedCandidates ("zqx".toList) ([("example.xyz".toList)].filterMap normalizeCandidate) =
      [ScoredUrl.mk ("https://example.xyz".toList) 0] ∧
    processQuery ("zqx".toList) none (QueryOutcome.fetched [("example.xyz".toList)]) = none := by
  decide

/-- C8 amended: within each query exactly the candidates scoring strictly
above -50 are retained; they are sorted by score descending; and the top
candidate becomes the running best whenever its score strictly exceeds the
current running best's score — or strictly exceeds 0 when there is no running
best yet (`bestThreshold`) — otherwise the running best is unchanged. -/
theorem candidate_selection_spec (companyName : Str) (urls : List Str)
    (best : Option ScoredUrl) :
    (∀ cand : ScoredUrl,
        cand ∈ retainedCandidates companyName urls ↔
          cand ∈ urls.map (fun u => ScoredUrl.mk u (scoreUrl u companyName)) ∧
            -50 < cand.score) ∧
    List.Sorted (fun a b : ScoredUrl => b.score ≤ a.score)
      (sortCandidates (retainedCandidates companyName urls)) ∧
    List.Perm (sortCandidates (retainedCandidates companyName urls))
      (retainedCandidates companyName urls) ∧
    ((∃ cand ∈ retainedCandidates companyName urls, bestThreshold best < cand.score) →
        ∃ top, updateBest best (retainedCandidates companyName urls) = some top ∧
          top ∈ retainedCandidates companyName urls ∧
          ∀ cand ∈ retainedCandidates companyName urls, cand.score ≤ top.score) ∧
    ((∀ cand ∈ retainedCandidates companyName urls, cand.score ≤ bestThreshold best) →
        updateBest best (retainedCandidates companyName urls) = best) := by
  refine ⟨?_, sortCandidates_sorted _, sortCandidates_perm _, ?_, ?_⟩
  · intro cand
    unfold retainedCandidates
    rw [List.mem_filter]
    simp only [decide_eq_true_iff]
  · rintro ⟨c, hc, hlt⟩
    cases hs : sortCandidates (retainedCandidates companyName urls) with
    | nil =>
      have : retainedCandidates companyName urls = [] := by
        have := sortCandidates_perm (retainedCandidates companyName urls)
        rw [hs] at this
        exact this.symm.eq_nil
      rw [this] at hc
      exact absurd hc (List.not_mem_nil c)
    | cons top rest =>
      have hperm := sortCandidates_perm (retainedCandidates companyName urls)
      rw [hs] at hperm
      have htop : top ∈ retainedCandidates companyName urls :=
        hperm.mem_iff.mp (List.mem_cons_self _ _)
      have hsorted := sortCandidates_sorted (retainedCandidates companyName urls)
      rw [hs] at hsorted
      have hmax : ∀ cand ∈ retainedCandidates companyName urls, cand.score ≤ top.score := by
        intro d hd
        have hd2 : d ∈ top :: rest := hperm.mem_iff.mpr hd
        rcases List.mem_cons.mp hd2 with rfl | hd3
        · exact le_refl _
        · exact List.rel_of_sorted_cons hsorted d hd3
      have hcond : bestThreshold best < top.score := lt_of_lt_of_le hlt (hmax c hc)
      refine ⟨top, ?_, htop, hmax⟩
      unfold updateBest
      rw [hs]
      dsimp only
      rw [if_pos hcond]
  · intro hall
    unfold updateBest
    cases hs : sortCandidates (retainedCandidates companyName urls) with
    | nil => rfl
    | cons top rest =>
      have hperm := sortCandidates_perm (retainedCandidates companyName urls)
      rw [hs] at hperm
      have htop : top ∈ retainedCandidates companyName urls :=
        hperm.mem_iff.mp (List.mem_cons_self _ _)
      dsimp only
      rw [if_neg (not_lt.mpr (hall top htop))]

/-- Witness for C8 (amended): a concrete query whose top retained candidate
strictly beats the (absent) running best and becomes the new best. -/
theorem candidate_selection_spec_witness :
    ∃ top, updateBest none (retainedCandidates ("zqx".toList) [("https://zqx.co.ke".toList)]) =
        some top ∧
      top ∈ retainedCandidates ("zqx".toList) [("https://zqx.co.ke".toList)] ∧
      ∀ cand ∈ retainedCandidates ("zqx".toList) [("https://zqx.co.ke".toList)],
        cand.score ≤ top.score :=
  (candidate_selection_spec ("zqx".toList) [("https://zqx.co.ke".toList)] none).2.2.2.1
    (by decide)

/-! ## C3 -/

/-- Counterexample for C3 as stated: for a business lacking a pre-known
website, when the network fetch throws for every one of the three search
queries, each failure is caught inside the handler's query loop (`continue`),
the handler responds `{websiteUrl: null, confidence: 0}` with status 200, and
the orchestrator maps that to status `not_found` — not `error`. -/
theorem all_query_failures_cex :
    (enrichOne
        (Company.mk ("Java House".toList) ("Cafe".toList) ("Nairobi".toList)
          ("Nairobi".toList) ("N/A".toList) ("N/A".toList) [])
        (FetchOutcome.ok
          (lookup ("Java House".toList)
            [QueryOutcome.fetchError, QueryOutcome.fetchError,
              QueryOutcome.fetchError]))).websiteStatus = some WebsiteStatus.not_found ∧
    ¬(enrichOne
        (Company.mk ("Java House".toList) ("Cafe".toList) ("Nairobi".toList)
          ("Nairobi".toList) ("N/A".toList) ("N/A".toList) [])
        (FetchOutcome.ok
          (lookup ("Java House".toList)
            [QueryOutcome.fetchError, QueryOutcome.fetchError,
              QueryOutcome.fetchError]))).websiteStatus = some WebsiteStatus.error := by
  decide

/-- C3 amended: for a business lacking a pre-known website, if the network
fetch throws for every search query of its lookup, the handler degrades to
`{websiteUrl: null, confidence: 0}` and the enriched record ends with status
`not_found` (status `error` arises only when the orchestrator-side fetch to
the handler itself throws). -/
theorem all_query_failures_not_found (c : Company) (companyName : Str)
    (outs : List QueryOutcome)
    (hw : hasExistingWebsite c = false)
    (hq : ∀ q ∈ outs, q = QueryOutcome.fetchError) :
    lookup companyName outs = ⟨none, 0⟩ ∧
    (enrichOne c (FetchOutcome.ok (lookup companyName outs))).websiteStatus =
      some WebsiteStatus.not_found := by
  have hrun : runQueries companyName none outs = none := by
    induction outs with
    | nil => rfl
    | cons q rest ih =>
      have hqf : q = QueryOutcome.fetchError := hq q (List.mem_cons_self _ _)
      subst hqf
      rw [runQueries]
      exact ih fun q2 hq2 => hq q2 (List.mem_cons_of_mem _ hq2)
  have hl : lookup companyName outs = ⟨none, 0⟩ := by
    unfold lookup; rw [hrun]
  refine ⟨hl, ?_⟩
  rw [hl]
  unfold enrichOne
  rw [hw]
  rfl

/-- Witness for C3 (amended) at a concrete business and all-failing queries. -/
theorem all_query_failures_not_found_witness :
    lookup ("Java House".toList) [QueryOutcome.fetchError] = ⟨none, 0⟩ ∧
    (enrichOne
        (Company.mk ("Java House".toList) [] ("Nairobi".toList) [] ("N/A".toList) [] [])
        (FetchOutcome.ok
          (lookup ("Java House".toList) [QueryOutcome.fetchError]))).websiteStatus =
      some WebsiteStatus.not_found :=
  all_query_failures_not_found
    (Company.mk ("Java House".toList) [] ("Nairobi".toList) [] ("N/A".toList) [] [])
    ("Java House".toList) [QueryOutcome.fetchError] (by decide) (by decide)

/-! ## C5 -/

/-- C5: with a cold cache entry for the key of `businessName`+`location`, two
handler calls perform exactly one network search sequence: the first call
searches and stores; the second call (with arbitrary query outcomes, which it
never consults) hits the cache, performs no search, returns the identical
result, and leaves the cache unchanged. -/
theorem lookup_cache_idempotent (c : Cache) (companyName location : Str)
    (outs outs2 : List QueryOutcome)
    (h : cacheGet c (cacheKey companyName location) = none) :
    (handleEnrich c companyName location outs).searched = true ∧
    (handleEnrich (handleEnrich c companyName location outs).cache companyName location
        outs2).searched = false ∧
    (handleEnrich (handleEnrich c companyName location outs).cache companyName location
        outs2).result = (handleEnrich c companyName location outs).result ∧
    (handleEnrich (handleEnrich c companyName location outs).cache companyName location
        outs2).cache = (handleEnrich c companyName location outs).cache := by
  have h1 : handleEnrich c companyName location outs =
      ⟨lookup companyName outs,
        cacheSet c (cacheKey companyName location) (lookup companyName outs), true⟩ := by
    unfold handleEnrich; rw [h]
  have h2 : cacheGet (cacheSet c (cacheKey companyName location) (lookup companyName outs))
      (cacheKey companyName location) = some (lookup companyName outs) := by
    unfold cacheSet cacheGet
    rw [if_pos rfl]
  have h3 : handleEnrich
      (cacheSet c (cacheKey companyName location) (lookup companyName outs))
      companyName location outs2 =
      ⟨lookup companyName outs,
        cacheSet c (cacheKey companyName location) (lookup companyName outs), false⟩ := by
    unfold handleEnrich; rw [h2]
  rw [h1]
  dsimp only
  rw [h3]
  exact ⟨rfl, rfl, rfl, rfl⟩

/-- Witness for C5 on an empty cache. -/
theorem lookup_cache_idempotent_witness :
    (handleEnrich [] ("a".toList) ("b".toList) []).searched = true ∧
    (handleEnrich (handleEnrich [] ("a".toList) ("b".toList) []).cache ("a".toList)
        ("b".toList) [QueryOutcome.fetchError]).searched = false ∧
    (handleEnrich (handleEnrich [] ("a".toList) ("b".toList) []).cache ("a".toList)
        ("b".toList) [QueryOutcome.fetchError]).result =
      (handleEnrich [] ("a".toList) ("b".toList) []).result ∧
    (handleEnrich (handleEnrich [] ("a".toList) ("b".toList) []).cache ("a".toList)
        ("b".toList) [QueryOutcome.fetchError]).cache =
      (handleEnrich [] ("a".toList) ("b".toList) []).cache :=
  lookup_cache_idempotent [] ("a".toList) ("b".toList) [] [QueryOutcome.fetchError] (by decide)

/-! ## C6 -/

/-- C6: for a business whose website field is set (non-empty, the JavaScript
truthiness the source tests) and is not the sentinel `"N/A"`, the orchestrator
fast-paths it — regardless of any fetch outcome it produces the record with
status `found` and `websiteUrl` equal to the pre-existing website, and
performs no network call for that business. -/
theorem preexisting_website_fast_path (c : Company) (o : FetchOutcome)
    (h1 : c.website ≠ []) (h2 : c.website ≠ NAStr) :
    enrichOne c o =
      { toCompany := c, websiteUrl := some c.website,
        websiteStatus := some WebsiteStatus.found, websiteConfidence := none } ∧
    usesNetwork c = false := by
  have hb : hasExistingWebsite c = true := by
    unfold hasExistingWebsite
    rw [Bool.and_eq_true, Bool.not_eq_true', Bool.not_eq_true']
    constructor
    · rw [List.isEmpty_eq_false_iff_exists_mem]
      cases hw : c.website with
      | nil => exact absurd hw h1
      | cons a l => exact ⟨a, List.mem_cons_self _ _⟩
    · exact beq_eq_false_iff_ne.mpr h2
  unfold enrichOne usesNetwork
  rw [hb]
  exact ⟨rfl, rfl⟩

/-- Witness for C6 at the spec's scenario website `https://example.co.ke`. -/
theorem preexisting_website_fast_path_witness :
    enrichOne
        (Company.mk ("Acme".toList) [] [] [] ("https://example.co.ke".toList) [] [])
        FetchOutcome.fetchThrow =
      { toCompany :=
          Company.mk ("Acme".toList) [] [] [] ("https://example.co.ke".toList) [] [],
        websiteUrl := some ("https://example.co.ke".toList),
        websiteStatus := some WebsiteStatus.found, websiteConfidence := none } ∧
    usesNetwork (Company.mk ("Acme".toList) [] [] [] ("https://example.co.ke".toList) [] []) =
      false :=
  preexisting_website_fast_path
    (Company.mk ("Acme".toList) [] [] [] ("https://example.co.ke".toList) [] [])
    FetchOutcome.fetchThrow (by decide) (by decide)

/-! ## C4 -/

/-- C4 as a code fact: the orchestrator's inter-batch wait ignores the `delay`
argument.  The callers of `enrichCompaniesWithWebsites` pass `2000` (commented
"2 second delay"), yet the wait performed is the hard-coded 1000 ms of
`setTimeout(resolve, 1000)`, not the passed `interBatchDelayMs`. -/
theorem interBatchWait_ignores_delay :
    interBatchWaitMs 2000 = 1000 ∧ ¬interBatchWaitMs 2000 = 2000 := by decide

/-! ## C7 -/

lemma progress_foldl_total (done : List (Company × FetchOutcome)) :
    ∀ p : EnrichmentProgress,
      (done.foldl (fun p e => stepProgress p e.1 e.2) p).total = p.total := by
  induction done with
  | nil => intro p; rfl
  | cons e rest ih => intro p; rw [List.foldl_cons, ih]; rfl

lemma progress_foldl_completed (done : List (Company × FetchOutcome)) :
    ∀ p : EnrichmentProgress,
      (done.foldl (fun p e => stepProgress p e.1 e.2) p).completed =
        p.completed + done.length := by
  induction done with
  | nil => intro p; rfl
  | cons e rest ih =>
    intro p
    rw [List.foldl_cons, ih]
    simp only [stepProgress, List.length_cons]
    omega

lemma progress_foldl_sum (done : List (Company × FetchOutcome)) :
    ∀ p : EnrichmentProgress,
      (done.foldl (fun p e => stepProgress p e.1 e.2) p).found +
          (done.foldl (fun p e => stepProgress p e.1 e.2) p).notFound +
          (done.foldl (fun p e => stepProgress p e.1 e.2) p).errors =
        p.found + p.notFound + p.errors + done.length := by
  induction done with
  | nil => intro p; rfl
  | cons e rest ih =>
    intro p
    rw [List.foldl_cons, ih]
    cases hk : unitKind e.1 e.2 <;> simp [stepProgress, hk] <;> omega

/-- C7: after every processed unit of work — for any completion order `evs` of
the per-business units and any prefix `done` of it (the units finished so
far) — the snapshot passed to `onProgress` satisfies
`completed = found + notFound + errors` and `completed ≤ total`. -/
theorem progress_invariant (companies : List Company) (outcomes : Nat → FetchOutcome)
    (evs done : List (Company × FetchOutcome))
    (hperm : List.Perm evs (companies.enum.map fun p => (p.2, outcomes p.1)))
    (hpre : done <+: evs) :
    (progressAfter companies done).completed =
      (progressAfter companies done).found + (progressAfter companies done).notFound +
        (progressAfter companies done).errors ∧
    (progressAfter companies done).completed ≤ (progressAfter companies done).total := by
  have hlen : done.length ≤ companies.length := by
    have hle : done.length ≤ evs.length := hpre.length_le
    have heq : evs.length = companies.length := by
      rw [hperm.length_eq, List.length_map, List.enum_length]
    omega
  unfold progressAfter
  refine ⟨?_, ?_⟩
  · rw [progress_foldl_completed, progress_foldl_sum]
    simp [initProgress]
  · rw [progress_foldl_completed, progress_foldl_total]
    simpa [initProgress] using hlen

/-- Witness for C7: a two-business run, completed in input order. -/
theorem progress_invariant_witness :
    (progressAfter
        [Company.mk ("a".toList) [] [] [] ("N/A".toList) [] [],
          Company.mk ("b".toList) [] [] [] ("https://b.co.ke".toList) [] []]
        (([Company.mk ("a".toList) [] [] [] ("N/A".toList) [] [],
            Company.mk ("b".toList) [] [] [] ("https://b.co.ke".toList) [] []].enum.map
          fun p => (p.2, (fun _ => FetchOutcome.fetchThrow) p.1)))).completed =
      (progressAfter
        [Company.mk ("a".toList) [] [] [] ("N/A".toList) [] [],
          Company.mk ("b".toList) [] [] [] ("https://b.co.ke".toList) [] []]
        (([Company.mk ("a".toList) [] [] [] ("N/A".toList) [] [],
            Company.mk ("b".toList) [] [] [] ("https://b.co.ke".toList) [] []].enum.map
          fun p => (p.2, (fun _ => FetchOutcome.fetchThrow) p.1)))).found +
        (progressAfter
          [Company.mk ("a".toList) [] [] [] ("N/A".toList) [] [],
            Company.mk ("b".toList) [] [] [] ("https://b.co.ke".toList) [] []]
          (([Company.mk ("a".toList) [] [] [] ("N/A".toList) [] [],
              Company.mk ("b".toList) [] [] [] ("https://b.co.ke".toList) [] []].enum.map
            fun p => (p.2, (fun _ => FetchOutcome.fetchThrow) p.1)))).notFound +
        (progressAfter
          [Company.mk ("a".toList) [] [] [] ("N/A".toList) [] [],
            Company.mk ("b".toList) [] [] [] ("https://b.co.ke".toList) [] []]
          (([Company.mk ("a".toList) [] [] [] ("N/A".toList) [] [],
              Company.mk ("b".toList) [] [] [] ("https://b.co.ke".toList) [] []].enum.map
            fun p => (p.2, (fun _ => FetchOutcome.fetchThrow) p.1)))).errors ∧
    (progressAfter
        [Company.mk ("a".toList) [] [] [] ("N/A".toList) [] [],
          Company.mk ("b".toList) [] [] [] ("https://b.co.ke".toList) [] []]
        (([Company.mk ("a".toList) [] [] [] ("N/A".toList) [] [],
            Company.mk ("b".toList) [] [] [] ("https://b.co.ke".toList) [] []].enum.map
          fun p => (p.2, (fun _ => FetchOutcome.fetchThrow) p.1)))).completed ≤
      (progressAfter
        [Company.mk ("a".toList) [] [] [] ("N/A".toList) [] [],
          Company.mk ("b".toList) [] [] [] ("https://b.co.ke".toList) [] []]
        (([Company.mk ("a".toList) [] [] [] ("N/A".toList) [] [],
            Company.mk ("b".toList) [] [] [] ("https://b.co.ke".toList) [] []].enum.map
          fun p => (p.2, (fun _ => FetchOutcome.fetchThrow) p.1)))).total :=
  progress_invariant
    [Company.mk ("a".toList) [] [] [] ("N/A".toList) [] [],
      Company.mk ("b".toList) [] [] [] ("https://b.co.ke".toList) [] []]
    (fun _ => FetchOutcome.fetchThrow) _ _ (List.Perm.refl _) ⟨[], List.append_nil _⟩

/-! ## C2 -/

/-- The enriched record of every input position from `i` on: position `i + j`
holds `enrichOne` of the input business at that position and its fetch
outcome. -/
def enrichedAt (outcomes : Nat → FetchOutcome) : Nat → List Company → List EnrichedCompany
  | _, [] => []
  | i, c :: rest => enrichOne c (outcomes i) :: enrichedAt outcomes (i + 1) rest

lemma enrichedAt_length (outcomes : Nat → FetchOutcome) :
    ∀ (i : Nat) (cs : List Company), (enrichedAt outcomes i cs).length = cs.length := by
  intro i cs
  induction cs generalizing i with
  | nil => rfl
  | cons c rest ih => simp [enrichedAt, ih]

lemma enrichedAt_append (outcomes : Nat → FetchOutcome) (xs ys : List Company) :
    ∀ i, enrichedAt outcomes i (xs ++ ys) =
      enrichedAt outcomes i xs ++ enrichedAt outcomes (i + xs.length) ys := by
  induction xs with
  | nil => intro i; simp [enrichedAt]
  | cons c rest ih =>
    intro i
    have harith : i + 1 + rest.length = i + (rest.length + 1) := by omega
    simp only [List.cons_append, enrichedAt, ih (i + 1), List.length_cons, harith,
      List.append_eq]

lemma enrichedAt_getElem? (outcomes : Nat → FetchOutcome) :
    ∀ (i k : Nat) (cs : List Company),
      (enrichedAt outcomes i cs)[k]? = cs[k]?.map fun c => enrichOne c (outcomes (i + k)) := by
  intro i k cs
  induction cs generalizing i k with
  | nil => simp [enrichedAt]
  | cons c rest ih =>
    cases k with
    | zero => simp [enrichedAt]
    | succ k2 =>
      have harith : i + 1 + k2 = i + (k2 + 1) := by omega
      simp [enrichedAt, ih (i + 1) k2, harith]

lemma set_append_cons (X : List EnrichedCompany) (y : EnrichedCompany)
    (ys : List EnrichedCompany) (e : EnrichedCompany) :
    (X ++ y :: ys).set X.length e = X ++ e :: ys := by
  induction X with
  | nil => rfl
  | cons x xs ih =>
    show x :: (xs ++ y :: ys).set xs.length e = x :: (xs ++ e :: ys)
    rw [ih]

lemma processBatch_append (outcomes : Nat → FetchOutcome) :
    ∀ (batch : List Company) (X Y : List EnrichedCompany),
      batch.length ≤ Y.length →
      processBatch outcomes batch X.length (X ++ Y) =
        X ++ enrichedAt outcomes X.length batch ++ Y.drop batch.length := by
  intro batch
  induction batch with
  | nil =>
    intro X Y h
    simp [processBatch, enrichedAt]
  | cons c rest ih =>
    intro X Y h
    cases Y with
    | nil => simp at h
    | cons y ys =>
      simp only [processBatch]
      rw [set_append_cons]
      have h2 : rest.length ≤ ys.length := by
        simp only [List.length_cons] at h; omega
      have hlen : (X ++ [enrichOne c (outcomes X.length)]).length = X.length + 1 := by simp
      have hsplit : X ++ enrichOne c (outcomes X.length) :: ys =
          (X ++ [enrichOne c (outcomes X.length)]) ++ ys := by simp
      rw [hsplit, ← hlen, ih (X ++ [enrichOne c (outcomes X.length)]) ys h2, hlen]
      simp [enrichedAt, List.append_assoc]

lemma enrichBatches_eq (cs : List Company) (outcomes : Nat → FetchOutcome) :
    ∀ (n i : Nat) (arr : List EnrichedCompany),
      cs.length - i ≤ n → arr.length = cs.length →
      enrichBatches cs outcomes i arr =
        arr.take i ++ enrichedAt outcomes i (cs.drop i) := by
  intro n
  induction n with
  | zero =>
    intro i arr h hlen
    rw [enrichBatches, if_neg (by omega)]
    rw [List.drop_eq_nil_of_le (by omega)]
    rw [List.take_of_length_le (by omega)]
    simp [enrichedAt]
  | succ n ihn =>
    intro i arr h hlen
    by_cases hi : i < cs.length
    · rw [enrichBatches, if_pos hi]
      set batch := (cs.drop i).take BATCH_SIZE with hbatch
      have hXlen : (arr.take i).length = i := by
        rw [List.length_take]; omega
      have hbl : batch.length = min BATCH_SIZE (cs.length - i) := by
        rw [hbatch, List.length_take, List.length_drop]
      have hblY : batch.length ≤ (arr.drop i).length := by
        rw [List.length_drop, hlen]; omega
      have hre : processBatch outcomes batch i arr =
          processBatch outcomes batch (arr.take i).length (arr.take i ++ arr.drop i) := by
        rw [hXlen, List.take_append_drop]
      have hpb : processBatch outcomes batch i arr =
          arr.take i ++ enrichedAt outcomes i batch ++ (arr.drop i).drop batch.length := by
        rw [hre, processBatch_append outcomes batch _ _ hblY, hXlen]
      rw [hpb]
      have harr2 : (arr.take i ++ enrichedAt outcomes i batch ++
          (arr.drop i).drop batch.length).length = cs.length := by
        simp only [List.length_append, enrichedAt_length, List.length_drop, hXlen, hlen]
        omega
      have hfuel : cs.length - (i + BATCH_SIZE) ≤ n := by
        simp only [BATCH_SIZE]; omega
      rw [ihn (i + BATCH_SIZE) _ hfuel harr2]
      have hCnil : ((arr.drop i).drop batch.length).take (BATCH_SIZE - batch.length) = [] := by
        rcases le_or_lt (i + BATCH_SIZE) cs.length with hb | hb
        · have hb3 : batch.length = BATCH_SIZE := by omega
          rw [hb3, Nat.sub_self, List.take_zero]
        · have hnil : (arr.drop i).drop batch.length = [] := by
            apply List.drop_eq_nil_of_le
            rw [List.length_drop, hlen]
            omega
          rw [hnil, List.take_nil]
      have htail : enrichedAt outcomes (i + batch.length) (cs.drop (i + BATCH_SIZE)) =
          enrichedAt outcomes (i + BATCH_SIZE) (cs.drop (i + BATCH_SIZE)) := by
        rcases le_or_lt (i + BATCH_SIZE) cs.length with hb | hb
        · have hb3 : batch.length = BATCH_SIZE := by omega
          rw [hb3]
        · rw [List.drop_eq_nil_of_le (by omega)]
          rfl
      have hlenAB : (arr.take i ++ enrichedAt outcomes i batch).length = i + batch.length := by
        rw [List.length_append, hXlen, enrichedAt_length]
      have hABle : (arr.take i ++ enrichedAt outcomes i batch).length ≤ i + BATCH_SIZE := by
        rw [hlenAB]; omega
      have hassemble : (arr.take i ++ enrichedAt outcomes i batch ++
          (arr.drop i).drop batch.length).take (i + BATCH_SIZE) =
          arr.take i ++ enrichedAt outcomes i batch := by
        rw [List.take_append_eq_append_take]
        rw [List.take_of_length_le hABle, hlenAB]
        have hidx : i + BATCH_SIZE - (i + batch.length) = BATCH_SIZE - batch.length := by omega
        rw [hidx, hCnil, List.append_nil]
      rw [hassemble]
      have hsplitcs : cs.drop i = batch ++ cs.drop (i + BATCH_SIZE) := by
        have hx := List.take_append_drop BATCH_SIZE (cs.drop i)
        rw [List.drop_drop] at hx
        rw [hbatch]
        exact hx.symm
      rw [hsplitcs, enrichedAt_append outcomes batch (cs.drop (i + BATCH_SIZE)) i, htail,
        List.append_assoc]
    · rw [enrichBatches, if_neg hi]
      rw [List.drop_eq_nil_of_le (by omega)]
      rw [List.take_of_length_le (by omega)]
      simp [enrichedAt]

/-- C2: `enrichCompaniesWithWebsites` returns a list of exactly the input's
length, and the record at each position `k` is `enrichOne` of the input
business at that same position (with that business's fetch outcome): no
business is dropped, duplicated, or reordered. -/
theorem enrich_preserves_length_and_order (cs : List Company)
    (outcomes : Nat → FetchOutcome) :
    (enrichCompaniesWithWebsites cs outcomes).length = cs.length ∧
    ∀ k : Nat, (enrichCompaniesWithWebsites cs outcomes)[k]? =
        cs[k]?.map fun c => enrichOne c (outcomes k) := by
  have hmain : enrichCompaniesWithWebsites cs outcomes = enrichedAt outcomes 0 cs := by
    unfold enrichCompaniesWithWebsites
    rw [enrichBatches_eq cs outcomes cs.length 0 _ (by omega) (by simp)]
    simp
  rw [hmain]
  refine ⟨enrichedAt_length outcomes 0 cs, fun k => ?_⟩
  simpa using enrichedAt_getElem? outcomes 0 k cs

end MapsBot
